import Mathlib

/-!
Shallow embedding of the quote computation engine of `src/index.ts`
(package `domain-quotes`).  JavaScript numbers are modelled as rationals
(`ℚ`); `Math.round` and `Number(n.toFixed(2))` are modelled by exact
rounding on `ℚ` with the half-up (resp. half-away-from-zero, following the
sign split in the ECMAScript `toFixed` algorithm) tie rule.  JavaScript
objects used as string-keyed records are modelled as association lists
with JavaScript assignment semantics (update in place, else append).
`Date.parse` results are modelled by `Option Int` (`none` for `NaN`),
and `Date.now()` by an explicit `wallClock` argument.
-/

set_option maxRecDepth 10000

namespace DomainQuotes

/-- Math.round: round half toward positive infinity. -/
def jsRound (q : ℚ) : ℤ := ⌊q + 1/2⌋

/-- Number(n.toFixed(2)): the ECMAScript algorithm extracts the sign first,
then picks the closest multiple of 1/100, ties upward. -/
def round2 (q : ℚ) : ℚ :=
  if q < 0 then -((⌊(-q) * 100 + 1/2⌋ : ℚ) / 100)
  else (⌊q * 100 + 1/2⌋ : ℚ) / 100

/-- roundAmount from src/index.ts. -/
def roundAmount (n : ℚ) (allowFractional : Bool) : ℚ :=
  if allowFractional then round2 n else (jsRound n : ℚ)

def DEFAULT_VAT_RATE : ℚ := 0.075

/-- ASCII model of toLowerCase, by character (kernel-reducible). -/
def strLower (s : String) : String := String.mk (s.data.map Char.toLower)

/-- ASCII model of toUpperCase, by character (kernel-reducible). -/
def strUpper (s : String) : String := String.mk (s.data.map Char.toUpper)

/-- Model of String.prototype.trim: strip whitespace at both ends. -/
def strTrim (s : String) : String :=
  String.mk
    (((s.data.dropWhile Char.isWhitespace).reverse.dropWhile
        Char.isWhitespace).reverse)

/-- normalizeExtension from src/index.ts: falsy (empty) input passes
through; otherwise trim, lowercase, strip all leading dots. -/
def normalizeExtension (extension : String) : String :=
  if extension = "" then extension
  else String.mk ((strLower (strTrim extension)).data.dropWhile (· = '.'))

inductive TransactionType
  | create | renew | restore | transfer
  deriving DecidableEq, Repr

inductive DiscountPolicy
  | stack | max
  deriving DecidableEq, Repr

inductive MarkupType
  | percentage | fixedUsd
  deriving DecidableEq, Repr

structure Markup where
  type : MarkupType
  value : ℚ

structure ExchangeRateData where
  countryCode : String
  currencyName : String
  currencySymbol : String
  currencyCode : String
  exchangeRate : ℚ
  inverseRate : ℚ
  deriving DecidableEq, Repr

/-- Context passed to discount eligibility callbacks. -/
structure DiscountEligibilityContext where
  extension : String
  currency : String
  transaction : TransactionType
  basePrice : ℚ
  discountCode : String

/-- Outcome of invoking an eligibility callback: a resolved boolean, or a
thrown error / rejected promise. -/
inductive EligOutcome
  | ok (eligible : Bool)
  | err
  deriving DecidableEq, Repr

/-- DiscountConfig from src/types.ts.  `startAt`/`endAt` hold the result
of `Date.parse` on the configured strings (`none` models `NaN`, i.e. a
string that fails to parse). -/
structure DiscountConfig where
  rate : ℚ
  extensions : List String
  startAt : Option Int
  endAt : Option Int
  transactions : Option (List TransactionType) := none
  isEligible : Option (DiscountEligibilityContext → EligOutcome) := none

/-- A price entry: a plain number or a currency-keyed record
(`Object.entries` order preserved). -/
inductive PriceEntry
  | num (v : ℚ)
  | map (entries : List (String × ℚ))

/-- A JavaScript string-keyed record of rationals. -/
abbrev PriceMap := List (String × ℚ)

deriving instance DecidableEq for Except

/-- Record field read. -/
def getKey : PriceMap → String → Option ℚ
  | [], _ => none
  | (k', v') :: rest, k => if k' = k then some v' else getKey rest k

/-- Record field assignment: overwrite in place, else append. -/
def setKey : PriceMap → String → ℚ → PriceMap
  | [], k, v => [(k, v)]
  | (k', v') :: rest, k, v =>
      if k' = k then (k, v) :: rest else (k', v') :: setKey rest k v

/-- Spread-merge: the result of the literal with the fields of `b`
assigned over a copy of `a`. -/
def mergeMap (a b : PriceMap) : PriceMap :=
  b.foldl (fun acc p => setKey acc p.1 p.2) a

/-- Body of the per-entry loop of toPriceMap. -/
def insertPrice (m : PriceMap) (code : String) (value : ℚ) : PriceMap :=
  let upper := strUpper code
  if upper = "" ∨ value ≤ 0 then m
  else
    match getKey m upper with
    | none => setKey m upper value
    | some existing => setKey m upper (min existing value)

def entriesToMap (es : List (String × ℚ)) : PriceMap :=
  es.foldl (fun m p => insertPrice m p.1 p.2) []

/-- toPriceMap from src/index.ts.  (Non-finite amounts cannot arise in the
rational model; the `Number.isFinite` guard collapses to the sign test.) -/
def toPriceMap : Option PriceEntry → Option PriceMap
  | none => none
  | some (.num v) => if v ≤ 0 then none else some [("USD", v)]
  | some (.map es) =>
      let m := entriesToMap es
      if m.isEmpty then none else some m

abbrev PriceTable := List (String × PriceEntry)

/-- Record lookup in a price table. -/
def lookupEntry : PriceTable → String → Option PriceEntry
  | [], _ => none
  | (k', v') :: rest, k => if k' = k then some v' else lookupEntry rest k

abbrev DiscountTable := List (String × DiscountConfig)

def lookupDiscount : DiscountTable → String → Option DiscountConfig
  | [], _ => none
  | (k', v') :: rest, k => if k' = k then some v' else lookupDiscount rest k

structure DomainQuoteConfig where
  createPrices : PriceTable
  renewPrices : Option PriceTable := none
  restorePrices : Option PriceTable := none
  transferPrices : Option PriceTable := none
  exchangeRates : List ExchangeRateData
  vatRate : ℚ
  discounts : DiscountTable
  markup : Option Markup := none
  supportedCurrencies : Option (List String) := none

structure GetQuoteOptions where
  discountCodes : Option (List String) := none
  now : Option Int := none
  discountPolicy : Option DiscountPolicy := none
  transaction : Option TransactionType := none
  allowFractionalAmounts : Option Bool := none

structure Quote where
  extension : String
  currency : String
  basePrice : ℚ
  discount : ℚ
  tax : ℚ
  totalPrice : ℚ
  symbol : String
  domainTransaction : TransactionType
  deriving DecidableEq, Repr

/-- The two error classes of src/index.ts. -/
inductive QuoteError
  | unsupportedExtension (ext : String)
  | unsupportedCurrency (currency : String)
  deriving DecidableEq, Repr

/-- The stable machine-readable `code` field carried by each error class. -/
def QuoteError.kind : QuoteError → String
  | .unsupportedExtension _ => "ERR_UNSUPPORTED_EXTENSION"
  | .unsupportedCurrency _ => "ERR_UNSUPPORTED_CURRENCY"

/-- findUsdRateInfo from src/index.ts. -/
def findUsdRateInfo : ExchangeRateData :=
  { countryCode := "US", currencyName := "United States Dollar",
    currencySymbol := "$", currencyCode := "USD",
    exchangeRate := 1, inverseRate := 1 }

/-- findRateInfo: USD is the identity rate; otherwise search the
configured table (a miss models the thrown UnsupportedCurrencyError). -/
def findRateInfo (cfg : DomainQuoteConfig) (currency : String) :
    Option ExchangeRateData :=
  if currency = "USD" then some findUsdRateInfo
  else cfg.exchangeRates.find? (fun r => r.currencyCode = currency)

/-- applyMarkup from src/index.ts. -/
def applyMarkup (baseUsd : ℚ) : Option Markup → ℚ
  | none => baseUsd
  | some m =>
      if m.value ≤ 0 then baseUsd
      else
        match m.type with
        | .percentage => baseUsd + baseUsd * m.value
        | .fixedUsd => baseUsd + m.value

/-- asNowValue: a supplied instant, else the wall clock. -/
def asNowValue (now : Option Int) (wallClock : Int) : Int :=
  now.getD wallClock

/-- The transaction-specific price table selected by the switch. -/
def transactionTableFor (cfg : DomainQuoteConfig) :
    TransactionType → Option PriceTable
  | .renew => cfg.renewPrices
  | .restore => cfg.restorePrices
  | .transfer => cfg.transferPrices
  | .create => none

/-- Price-map resolution of getQuote: the create entry as base, the
transaction entry (when valid) spread over it.  Returns the pair
(createMap, priceMap); `none` models the first UnsupportedExtensionError. -/
def resolvePriceMap (cfg : DomainQuoteConfig) (ext : String)
    (tx : TransactionType) : Option (PriceMap × PriceMap) :=
  match toPriceMap (lookupEntry cfg.createPrices ext) with
  | none => none
  | some createMap =>
      let priceMap :=
        match transactionTableFor cfg tx with
        | none => createMap
        | some table =>
            match toPriceMap (lookupEntry table ext) with
            | none => createMap
            | some override => mergeMap createMap override
      some (createMap, priceMap)

/-- Base-USD selection of getQuote: priceMap.USD, else createMap.USD, else
the direct-currency price divided by the exchange rate. -/
def resolveBaseUsd (createMap priceMap : PriceMap) (currency : String)
    (exchangeRate : ℚ) : Option ℚ :=
  match getKey priceMap "USD" with
  | some v => some v
  | none =>
      match getKey createMap "USD" with
      | some v => some v
      | none =>
          match getKey priceMap currency with
          | some d => some (d / exchangeRate)
          | none => none

/-- The per-discount filter chain of the loop body of getQuote: window,
extension membership, transaction eligibility, custom callback.  Returns
the contribution `roundAmount (basePrice * rate)` of a surviving
discount, `none` for a skipped one. -/
def evalDiscount (conf : DiscountConfig) (ext currency : String)
    (tx : TransactionType) (basePrice : ℚ) (allowFractional : Bool)
    (nowMs : Int) (code : String) : Option ℚ :=
  match conf.startAt, conf.endAt with
  | some start, some stop =>
      if nowMs < start ∨ nowMs > stop then none
      else if ¬ (conf.extensions.map normalizeExtension).contains ext then none
      else if (match conf.transactions with
               | some ts => !ts.isEmpty && !ts.contains tx
               | none => false) then none
      else
        match conf.isEligible with
        | some f =>
            match f { extension := ext, currency := currency,
                      transaction := tx, basePrice := basePrice,
                      discountCode := code } with
            | .ok true => some (roundAmount (basePrice * conf.rate) allowFractional)
            | .ok false => none
            | .err => none
        | none => some (roundAmount (basePrice * conf.rate) allowFractional)
  | _, _ => none

/-- The loop of getQuote over the deduplicated codes, building the
`applicable` array. -/
def evalDiscountCodes (discounts : DiscountTable) (ext currency : String)
    (tx : TransactionType) (basePrice : ℚ) (allowFractional : Bool)
    (nowMs : Int) : List String → List ℚ
  | [] => []
  | code :: rest =>
      let tail := evalDiscountCodes discounts ext currency tx basePrice
        allowFractional nowMs rest
      match lookupDiscount discounts code with
      | none => tail
      | some conf =>
          match evalDiscount conf ext currency tx basePrice allowFractional
              nowMs code with
          | none => tail
          | some amt => amt :: tail

/-- Array.from(new Set(...)): deduplicate keeping first occurrences. -/
def dedupKeepFirst (l : List String) : List String :=
  l.foldl (fun acc c => if acc.contains c then acc else acc ++ [c]) []

/-- Aggregation of the applicable contributions: rounded sum under
`stack`, maximum otherwise, 0 when no discount survives. -/
def aggregateDiscount (applicable : List ℚ)
    (policy : Option DiscountPolicy) (allowFractional : Bool) : ℚ :=
  match applicable with
  | [] => 0
  | a :: rest =>
      if policy = some .stack then
        roundAmount ((a :: rest).foldl (· + ·) 0) allowFractional
      else rest.foldl max a

/-- Base-price conversion of getQuote: the implied rate d / baseUsd is
used when a direct-currency price d exists (and baseUsd is positive),
the nominal exchange rate otherwise. -/
def convertBase (markedUsd : ℚ) (direct : Option ℚ) (baseUsd : ℚ)
    (exchangeRate : ℚ) (af : Bool) : ℚ :=
  match direct with
  | some d =>
      if 0 < baseUsd then roundAmount (markedUsd * (d / baseUsd)) af
      else roundAmount (markedUsd * exchangeRate) af
  | none => roundAmount (markedUsd * exchangeRate) af

/-- The successful tail of getQuote, once the price map, rate info and a
positive base USD amount are resolved. -/
def quoteOf (cfg : DomainQuoteConfig) (createMap priceMap : PriceMap)
    (rateInfo : ExchangeRateData) (baseUsd : ℚ) (ext currency : String)
    (options : GetQuoteOptions) (wallClock : Int) : Quote :=
  let tx := options.transaction.getD TransactionType.create
  let allowFractional := options.allowFractionalAmounts.getD false
  let markedUsd := applyMarkup baseUsd cfg.markup
  let direct := getKey priceMap currency
  let basePrice := convertBase markedUsd direct baseUsd rateInfo.exchangeRate
    allowFractional
  let uniqueCodes := dedupKeepFirst ((options.discountCodes.getD []).map strUpper)
  let nowMs := asNowValue options.now wallClock
  let applicable := evalDiscountCodes cfg.discounts ext currency tx basePrice
    allowFractional nowMs uniqueCodes
  let discount0 := aggregateDiscount applicable options.discountPolicy allowFractional
  let discount := if basePrice < discount0 then basePrice else discount0
  let subtotal := roundAmount (basePrice - discount) allowFractional
  let tax := roundAmount (subtotal * cfg.vatRate) allowFractional
  let totalPrice := roundAmount (subtotal + tax) allowFractional
  { extension := ext, currency := currency, basePrice := basePrice,
    discount := discount, tax := tax, totalPrice := totalPrice,
    symbol := rateInfo.currencySymbol, domainTransaction := tx }

/-- getQuote from src/index.ts. -/
def getQuote (cfg : DomainQuoteConfig) (extension currencyCode : String)
    (options : GetQuoteOptions) (wallClock : Int) : Except QuoteError Quote :=
  let ext := normalizeExtension extension
  let tx := options.transaction.getD TransactionType.create
  match resolvePriceMap cfg ext tx with
  | none => .error (.unsupportedExtension ext)
  | some (createMap, priceMap) =>
      if priceMap.isEmpty then .error (.unsupportedExtension ext)
      else
        let currency := strUpper currencyCode
        let supported := cfg.supportedCurrencies.getD ["USD", "NGN"]
        if ¬ supported.contains currency then
          .error (.unsupportedCurrency currencyCode)
        else
          match findRateInfo cfg currency with
          | none => .error (.unsupportedCurrency currency)
          | some rateInfo =>
              match resolveBaseUsd createMap priceMap currency
                  rateInfo.exchangeRate with
              | none => .error (.unsupportedExtension ext)
              | some baseUsd =>
                  if baseUsd ≤ 0 then .error (.unsupportedExtension ext)
                  else
                    .ok (quoteOf cfg createMap priceMap rateInfo baseUsd ext
                      currency options wallClock)

/-- Projection used to state concrete facts about a successful quote. -/
def quoteDiscount : Except QuoteError Quote → Option ℚ
  | .ok q => some q.discount
  | .error _ => none

/-! Specification-side helper predicates and lists used in the statements. -/

/-- The custom eligibility callback passes (absent, or resolves to true). -/
def eligPasses (conf : DiscountConfig) (ctx : DiscountEligibilityContext) : Prop :=
  match conf.isEligible with
  | none => True
  | some f => f ctx = .ok true

/-- The keys of a record. -/
def keysOf (m : PriceMap) : List String := m.map Prod.fst

/-- Left-biased choice on optional amounts. -/
def orOpt : Option ℚ → Option ℚ → Option ℚ
  | some v, _ => some v
  | none, b => b

/-- The valid (positive) amounts an entry list offers for the uppercase
currency key `k`, in entry order. -/
def validVals (es : List (String × ℚ)) (k : String) : List ℚ :=
  es.filterMap (fun p => if strUpper p.1 = k ∧ 0 < p.2 then some p.2 else none)

/-- Running minimum of an optional accumulator and a new amount. -/
def minStep (a : Option ℚ) (v : ℚ) : Option ℚ :=
  match a with
  | none => some v
  | some x => some (min x v)

/-! Concrete configurations used by the example claims and witnesses. -/

def ngnRate : ExchangeRateData :=
  { countryCode := "NG", currencyName := "Nigerian Naira",
    currencySymbol := "N", currencyCode := "NGN",
    exchangeRate := 1000, inverseRate := 1/1000 }

/-- A discount on `com`, active on the window [0, 1000]. -/
def comDisc (r : ℚ) : DiscountConfig :=
  { rate := r, extensions := ["com"], startAt := some 0, endAt := some 1000 }

/-- Plain 10 USD price for `com`, no discounts. -/
def cfgCom : DomainQuoteConfig :=
  { createPrices := [("com", .num 10)], exchangeRates := [ngnRate],
    vatRate := DEFAULT_VAT_RATE, discounts := [] }

/-- Three discounts of 5, 15, 25 percent on a 10 USD base. -/
def cfgThreeDiscounts : DomainQuoteConfig :=
  { createPrices := [("com", .num 10)], exchangeRates := [],
    vatRate := DEFAULT_VAT_RATE,
    discounts := [("A", comDisc (5/100)), ("B", comDisc (15/100)),
                  ("C", comDisc (25/100))] }

def optsThreeMax : GetQuoteOptions :=
  { discountCodes := some ["A", "B", "C"], now := some 500,
    allowFractionalAmounts := some true }

def optsThreeStack : GetQuoteOptions :=
  { discountCodes := some ["A", "B", "C"], now := some 500,
    discountPolicy := some .stack, allowFractionalAmounts := some true }

/-- Two 60 percent discounts on a 10 USD base. -/
def cfgTwoSixty : DomainQuoteConfig :=
  { createPrices := [("com", .num 10)], exchangeRates := [],
    vatRate := DEFAULT_VAT_RATE,
    discounts := [("A", comDisc (60/100)), ("B", comDisc (60/100))] }

def optsTwoSixtyStack : GetQuoteOptions :=
  { discountCodes := some ["A", "B"], now := some 500,
    discountPolicy := some .stack, allowFractionalAmounts := some true }

/-- A discount active on the window [100, 200]. -/
def discWindow : DiscountConfig :=
  { rate := 1/10, extensions := ["com"], startAt := some 100, endAt := some 200 }

/-- A 10 percent discount configured under a lowercase code. -/
def cfgLowerCode : DomainQuoteConfig :=
  { createPrices := [("com", .num 10)], exchangeRates := [],
    vatRate := DEFAULT_VAT_RATE, discounts := [("save10", comDisc (1/10))] }

/-- The same discount configured under the uppercase canonical code. -/
def cfgUpperCode : DomainQuoteConfig :=
  { createPrices := [("com", .num 10)], exchangeRates := [],
    vatRate := DEFAULT_VAT_RATE, discounts := [("SAVE10", comDisc (1/10))] }

def optsRepeatedCodes : GetQuoteOptions :=
  { discountCodes := some ["SAVE10", "save10", "SAVE10"], now := some 500,
    allowFractionalAmounts := some true }

def optsLowerCode : GetQuoteOptions :=
  { discountCodes := some ["save10"], now := some 500,
    allowFractionalAmounts := some true }

/-- Only a USD price for `com`. -/
def cfgUsdOnly : DomainQuoteConfig :=
  { createPrices := [("com", .num 1)], exchangeRates := [ngnRate],
    vatRate := DEFAULT_VAT_RATE, discounts := [] }

/-- An explicit NGN price alongside the USD price. -/
def cfgNgnDirect : DomainQuoteConfig :=
  { createPrices := [("com", .map [("USD", 7), ("NGN", 650)])],
    exchangeRates := [ngnRate], vatRate := DEFAULT_VAT_RATE, discounts := [] }

/-- A price only in EUR: valid entry, but no USD and no NGN amount. -/
def cfgEurOnly : DomainQuoteConfig :=
  { createPrices := [("com", .map [("EUR", 5)])], exchangeRates := [ngnRate],
    vatRate := DEFAULT_VAT_RATE, discounts := [] }

/-- The quote produced for cfgTwoSixty under the stacked repeated request. -/
def twoSixtyQuote : Quote :=
  { extension := "com", currency := "USD", basePrice := 10, discount := 10,
    tax := 0, totalPrice := 0, symbol := "$", domainTransaction := .create }

/-- The quote produced for cfgNgnDirect in NGN. -/
def ngnDirectQuote : Quote :=
  { extension := "com", currency := "NGN", basePrice := 650, discount := 0,
    tax := 49, totalPrice := 699, symbol := "N",
    domainTransaction := .create }

/-- Projection of the basePrice of a successful quote. -/
def quoteBasePrice : Except QuoteError Quote → Option ℚ
  | .ok q => some q.basePrice
  | .error _ => none

/-- Create and renew tables whose entries overlap on USD only. -/
def cfgRenew : DomainQuoteConfig :=
  { createPrices := [("com", .map [("USD", 8), ("NGN", 60)])],
    renewPrices := some [("com", .map [("USD", 9)])],
    exchangeRates := [ngnRate], vatRate := DEFAULT_VAT_RATE, discounts := [] }

/-! Record lemmas. -/

theorem getKey_setKey_same (m : PriceMap) (k : String) (v : ℚ) :
    getKey (setKey m k v) k = some v := by
  induction m with
  | nil => simp [setKey, getKey]
  | cons p rest ih =>
      obtain ⟨k', v'⟩ := p
      by_cases h : k' = k
      · simp [setKey, getKey, h]
      · simp [setKey, getKey, h, ih]

theorem getKey_setKey_other (m : PriceMap) {k x : String} (h : k ≠ x) (v : ℚ) :
    getKey (setKey m k v) x = getKey m x := by
  induction m with
  | nil => simp [setKey, getKey, h]
  | cons p rest ih =>
      obtain ⟨k', v'⟩ := p
      by_cases hk : k' = k
      · subst hk
        simp [setKey, getKey, h]
      · by_cases hx : k' = x
        · subst hx
          simp [setKey, getKey, hk, Ne.symm h]
        · simp [setKey, getKey, hk, hx, ih]

theorem keysOf_cons (k : String) (v : ℚ) (rest : PriceMap) :
    keysOf ((k, v) :: rest) = k :: keysOf rest := rfl

theorem mem_keysOf_setKey {m : PriceMap} {k x : String} {v : ℚ} :
    x ∈ keysOf (setKey m k v) ↔ x ∈ keysOf m ∨ x = k := by
  induction m with
  | nil => simp [setKey, keysOf]
  | cons p rest ih =>
      obtain ⟨k', v'⟩ := p
      by_cases hk : k' = k
      · subst hk
        simp [setKey, keysOf]
        tauto
      · simp [setKey, keysOf, hk] at ih ⊢
        tauto

theorem nodup_keysOf_setKey {m : PriceMap} (h : (keysOf m).Nodup)
    (k : String) (v : ℚ) : (keysOf (setKey m k v)).Nodup := by
  induction m with
  | nil => simp [setKey, keysOf]
  | cons p rest ih =>
      obtain ⟨k', v'⟩ := p
      rw [keysOf_cons, List.nodup_cons] at h
      by_cases hk : k' = k
      · subst hk
        simp only [setKey, eq_self_iff_true, if_true, keysOf_cons,
          List.nodup_cons]
        exact h
      · simp only [setKey, if_neg hk, keysOf_cons, List.nodup_cons]
        refine ⟨fun hmem => ?_, ih h.2⟩
        rcases mem_keysOf_setKey.mp hmem with hm | rfl
        · exact h.1 hm
        · exact hk rfl

theorem getKey_eq_none_iff {m : PriceMap} {k : String} :
    getKey m k = none ↔ k ∉ keysOf m := by
  induction m with
  | nil => simp [getKey, keysOf]
  | cons p rest ih =>
      obtain ⟨k', v'⟩ := p
      by_cases h : k' = k
      · simp [getKey, keysOf, h]
      · simp [getKey, keysOf, h, ih, Ne.symm h]

theorem mergeMap_cons (a : PriceMap) (k : String) (v : ℚ) (rest : PriceMap) :
    mergeMap a ((k, v) :: rest) = mergeMap (setKey a k v) rest := rfl

theorem getKey_mergeMap (a : PriceMap) {b : PriceMap}
    (hb : (keysOf b).Nodup) (k : String) :
    getKey (mergeMap a b) k = orOpt (getKey b k) (getKey a k) := by
  induction b generalizing a with
  | nil => simp [mergeMap, getKey, orOpt]
  | cons p rest ih =>
      obtain ⟨k0, v0⟩ := p
      rw [keysOf_cons, List.nodup_cons] at hb
      rw [mergeMap_cons, ih (setKey a k0 v0) hb.2]
      by_cases hk : k0 = k
      · subst hk
        have hnone : getKey rest k0 = none := getKey_eq_none_iff.mpr hb.1
        simp [getKey, hnone, orOpt, getKey_setKey_same]
      · simp [getKey, hk, getKey_setKey_other a hk v0]

theorem setKey_ne_nil (m : PriceMap) (k : String) (v : ℚ) :
    setKey m k v ≠ [] := by
  cases m with
  | nil => simp [setKey]
  | cons p rest =>
      obtain ⟨k', v'⟩ := p
      by_cases h : k' = k <;> simp [setKey, h]

theorem mergeMap_ne_nil {a : PriceMap} (ha : a ≠ []) (b : PriceMap) :
    mergeMap a b ≠ [] := by
  induction b generalizing a with
  | nil => simpa [mergeMap]
  | cons p rest ih =>
      obtain ⟨k0, v0⟩ := p
      rw [mergeMap_cons]
      exact ih (setKey_ne_nil a k0 v0)

theorem nodup_keysOf_insertPrice {m : PriceMap} (h : (keysOf m).Nodup)
    (c : String) (v : ℚ) : (keysOf (insertPrice m c v)).Nodup := by
  simp only [insertPrice]
  split
  · exact h
  · split
    · exact nodup_keysOf_setKey h _ _
    · exact nodup_keysOf_setKey h _ _

theorem nodup_keysOf_entriesToMap (es : List (String × ℚ)) :
    (keysOf (entriesToMap es)).Nodup := by
  have aux : ∀ (l : List (String × ℚ)) (m : PriceMap), (keysOf m).Nodup →
      (keysOf (l.foldl (fun m p => insertPrice m p.1 p.2) m)).Nodup := by
    intro l
    induction l with
    | nil => intro m hm; simpa
    | cons p rest ih =>
        intro m hm
        exact ih _ (nodup_keysOf_insertPrice hm p.1 p.2)
  exact aux es [] (by simp [keysOf])

theorem toPriceMap_nodup {e : Option PriceEntry} {m : PriceMap}
    (h : toPriceMap e = some m) : (keysOf m).Nodup := by
  match e with
  | none => simp [toPriceMap] at h
  | some (.num v) =>
      simp [toPriceMap] at h
      rcases h with ⟨-, rfl⟩
      simp [keysOf]
  | some (.map es) =>
      simp [toPriceMap] at h
      rcases h with ⟨-, rfl⟩
      exact nodup_keysOf_entriesToMap es

theorem toPriceMap_ne_nil {e : Option PriceEntry} {m : PriceMap}
    (h : toPriceMap e = some m) : m ≠ [] := by
  match e with
  | none => simp [toPriceMap] at h
  | some (.num v) =>
      simp [toPriceMap] at h
      rcases h with ⟨-, rfl⟩
      simp
  | some (.map es) =>
      simp [toPriceMap] at h
      rcases h with ⟨he, rfl⟩
      simpa [List.isEmpty_iff] using he

/-! Resolution lemmas. -/

theorem resolvePriceMap_create {cfg : DomainQuoteConfig} {ext : String}
    {tx : TransactionType} {cm pm : PriceMap}
    (h : resolvePriceMap cfg ext tx = some (cm, pm)) :
    toPriceMap (lookupEntry cfg.createPrices ext) = some cm := by
  simp only [resolvePriceMap] at h
  split at h
  · exact Option.noConfusion h
  next c heq =>
    obtain ⟨rfl, -⟩ : c = cm ∧ _ := by
      have := Option.some.inj h
      exact ⟨congrArg Prod.fst this, congrArg Prod.snd this⟩
    exact heq

theorem resolvePriceMap_cases {cfg : DomainQuoteConfig} {ext : String}
    {tx : TransactionType} {cm pm : PriceMap}
    (h : resolvePriceMap cfg ext tx = some (cm, pm)) :
    pm = cm ∨ ∃ table ov, transactionTableFor cfg tx = some table ∧
      toPriceMap (lookupEntry table ext) = some ov ∧ pm = mergeMap cm ov := by
  simp only [resolvePriceMap] at h
  split at h
  · exact Option.noConfusion h
  next c heq =>
    have hinj := Option.some.inj h
    have hc : c = cm := congrArg Prod.fst hinj
    have hp := congrArg Prod.snd hinj
    subst hc
    simp only at hp
    split at hp
    · exact Or.inl hp.symm
    next table htable =>
      split at hp
      · exact Or.inl hp.symm
      next ov hov => exact Or.inr ⟨table, ov, htable, hov, hp.symm⟩

theorem resolvePriceMap_ne_nil {cfg : DomainQuoteConfig} {ext : String}
    {tx : TransactionType} {cm pm : PriceMap}
    (h : resolvePriceMap cfg ext tx = some (cm, pm)) : pm ≠ [] := by
  have hcm : cm ≠ [] := toPriceMap_ne_nil (resolvePriceMap_create h)
  rcases resolvePriceMap_cases h with rfl | ⟨table, ov, -, -, rfl⟩
  · exact hcm
  · exact mergeMap_ne_nil hcm ov

theorem resolvePriceMap_getKey_none {cfg : DomainQuoteConfig} {ext : String}
    {tx : TransactionType} {cm pm : PriceMap} {k : String}
    (h : resolvePriceMap cfg ext tx = some (cm, pm))
    (hk : getKey pm k = none) : getKey cm k = none := by
  rcases resolvePriceMap_cases h with rfl | ⟨table, ov, -, hov, rfl⟩
  · exact hk
  · rw [getKey_mergeMap cm (toPriceMap_nodup hov) k] at hk
    cases hov' : getKey ov k with
    | none => simpa [orOpt, hov'] using hk
    | some v => simp [orOpt, hov'] at hk

/-! Success-path elimination for getQuote. -/

theorem getQuote_ok_elim {cfg : DomainQuoteConfig} {e c : String}
    {o : GetQuoteOptions} {wc : Int} {q : Quote}
    (h : getQuote cfg e c o wc = .ok q) :
    ∃ cm pm ri bu,
      resolvePriceMap cfg (normalizeExtension e) (o.transaction.getD .create)
        = some (cm, pm) ∧
      (cfg.supportedCurrencies.getD ["USD", "NGN"]).contains (strUpper c) = true ∧
      findRateInfo cfg (strUpper c) = some ri ∧
      resolveBaseUsd cm pm (strUpper c) ri.exchangeRate = some bu ∧
      0 < bu ∧
      q = quoteOf cfg cm pm ri bu (normalizeExtension e) (strUpper c) o wc := by
  simp only [getQuote] at h
  split at h
  · exact Except.noConfusion h
  next pr cm pm heq =>
    split at h
    · exact Except.noConfusion h
    split at h
    · exact Except.noConfusion h
    next hsup =>
      split at h
      · exact Except.noConfusion h
      next ri hri =>
        split at h
        · exact Except.noConfusion h
        next bu hbu =>
          split at h
          · exact Except.noConfusion h
          next hpos =>
            refine ⟨cm, pm, ri, bu, heq, ?_, hri, hbu, ?_, ?_⟩
            · by_contra hc
              exact hsup (by simpa using hc)
            · exact lt_of_not_ge (fun hle => hpos (by linarith))
            · exact (Except.ok.inj h).symm

/-! Aggregation lemmas. -/

theorem foldl_max_spec (a : ℚ) (l : List ℚ) :
    l.foldl max a ∈ a :: l ∧ ∀ x ∈ a :: l, x ≤ l.foldl max a := by
  induction l generalizing a with
  | nil => simp
  | cons b rest ih =>
      have h := ih (max a b)
      rw [List.foldl_cons]
      constructor
      · have hm := h.1
        rw [List.mem_cons] at hm
        rcases hm with hm | hm
        · rcases max_choice a b with he | he
          · rw [hm, he]
            exact List.mem_cons_self _ _
          · rw [hm, he]
            exact List.mem_cons_of_mem _ (List.mem_cons_self _ _)
        · exact List.mem_cons_of_mem _ (List.mem_cons_of_mem _ hm)
      · intro x hx
        rw [List.mem_cons, List.mem_cons] at hx
        rcases hx with rfl | rfl | hx
        · exact le_trans (le_max_left x b) (h.2 _ (List.mem_cons_self _ _))
        · exact le_trans (le_max_right a x) (h.2 _ (List.mem_cons_self _ _))
        · exact h.2 _ (List.mem_cons_of_mem _ hx)

theorem dedup_const {U : String} {l : List String} (hne : l ≠ [])
    (hall : ∀ x ∈ l, x = U) : dedupKeepFirst l = [U] := by
  have aux : ∀ (t : List String), (∀ x ∈ t, x = U) →
      t.foldl (fun acc c => if acc.contains c then acc else acc ++ [c]) [U]
        = [U] := by
    intro t
    induction t with
    | nil => intro _; rfl
    | cons b rest ih =>
        intro hb
        have hbU : b = U := hb b (List.mem_cons_self _ _)
        subst hbU
        simp only [List.foldl_cons, List.contains_cons]
        rw [if_pos (by simp)]
        exact ih fun x hx => hb x (List.mem_cons_of_mem _ hx)
  match l, hne with
  | b :: rest, _ =>
      have hbU : b = U := hall b (List.mem_cons_self _ _)
      subst hbU
      simp only [dedupKeepFirst, List.foldl_cons, List.contains_nil]
      rw [if_neg (by simp), List.nil_append]
      exact aux rest fun x hx => hall x (List.mem_cons_of_mem _ hx)

/-! Minimum-kept characterization of entriesToMap. -/

theorem getKey_insertPrice_valid {m : PriceMap} {c : String} {v : ℚ}
    {k : String} (hk : k ≠ "") (hc : strUpper c = k) (hv : 0 < v) :
    getKey (insertPrice m c v) k = minStep (getKey m k) v := by
  simp only [insertPrice, hc]
  rw [if_neg (by push_neg; exact ⟨hk, hv⟩)]
  cases hm : getKey m k with
  | none => simp [minStep, hm, getKey_setKey_same]
  | some existing => simp [minStep, hm, getKey_setKey_same]

theorem getKey_insertPrice_skip {m : PriceMap} {c : String} {v : ℚ}
    {k : String} (h : ¬(strUpper c = k ∧ 0 < v)) :
    getKey (insertPrice m c v) k = getKey m k := by
  simp only [insertPrice]
  split
  · rfl
  next hcond =>
    push_neg at hcond
    have hne : strUpper c ≠ k := fun he => h ⟨he, hcond.2⟩
    split
    · exact getKey_setKey_other m hne _
    · exact getKey_setKey_other m hne _

theorem getKey_foldl_insertPrice (es : List (String × ℚ)) (m : PriceMap)
    {k : String} (hk : k ≠ "") :
    getKey (es.foldl (fun m p => insertPrice m p.1 p.2) m) k
      = (validVals es k).foldl minStep (getKey m k) := by
  induction es generalizing m with
  | nil => simp [validVals]
  | cons p rest ih =>
      obtain ⟨c, v⟩ := p
      rw [List.foldl_cons, ih]
      by_cases hcv : strUpper c = k ∧ 0 < v
      · rw [getKey_insertPrice_valid hk hcv.1 hcv.2]
        simp [validVals, hcv]
      · rw [getKey_insertPrice_skip hcv]
        simp only [validVals, List.filterMap_cons]
        rw [if_neg hcv]

theorem getKey_entriesToMap (es : List (String × ℚ)) {k : String}
    (hk : k ≠ "") :
    getKey (entriesToMap es) k = (validVals es k).foldl minStep none :=
  getKey_foldl_insertPrice es [] hk

theorem foldl_minStep_some (a : ℚ) (l : List ℚ) :
    l.foldl minStep (some a) = some (l.foldl min a) := by
  induction l generalizing a with
  | nil => rfl
  | cons b rest ih => simp [List.foldl_cons, minStep, ih]

theorem foldl_min_spec (a : ℚ) (l : List ℚ) :
    l.foldl min a ∈ a :: l ∧ ∀ x ∈ a :: l, l.foldl min a ≤ x := by
  induction l generalizing a with
  | nil => simp
  | cons b rest ih =>
      have h := ih (min a b)
      rw [List.foldl_cons]
      constructor
      · have hm := h.1
        rw [List.mem_cons] at hm
        rcases hm with hm | hm
        · rcases min_choice a b with he | he
          · rw [hm, he]
            exact List.mem_cons_self _ _
          · rw [hm, he]
            exact List.mem_cons_of_mem _ (List.mem_cons_self _ _)
        · exact List.mem_cons_of_mem _ (List.mem_cons_of_mem _ hm)
      · intro x hx
        rw [List.mem_cons, List.mem_cons] at hx
        rcases hx with rfl | rfl | hx
        · exact le_trans (h.2 _ (List.mem_cons_self _ _)) (min_le_left x b)
        · exact le_trans (h.2 _ (List.mem_cons_self _ _)) (min_le_right a x)
        · exact h.2 _ (List.mem_cons_of_mem _ hx)

/-- getQuote depends on its extension argument only through
normalizeExtension. -/
theorem getQuote_ext_congr {e1 e2 : String}
    (h : normalizeExtension e1 = normalizeExtension e2)
    (cfg : DomainQuoteConfig) (c : String) (o : GetQuoteOptions) (wc : Int) :
    getQuote cfg e1 c o wc = getQuote cfg e2 c o wc := by
  simp only [getQuote, h]

/-- C1: for every successful getQuote call, the returned fields satisfy
totalPrice = round(round(basePrice - discount) + round(round(basePrice -
discount) * vatRate)) under the active rounding mode: two decimal places
when allowFractionalAmounts is true, nearest integer otherwise (the
default), with the configured vatRate as tax rate. -/
theorem claim_C1_total_decomposition (cfg : DomainQuoteConfig)
    (e c : String) (o : GetQuoteOptions) (wc : Int) (q : Quote) (af : Bool)
    (haf : af = o.allowFractionalAmounts.getD false)
    (h : getQuote cfg e c o wc = .ok q) :
    q.totalPrice = roundAmount (roundAmount (q.basePrice - q.discount) af
      + roundAmount (roundAmount (q.basePrice - q.discount) af
          * cfg.vatRate) af) af := by
  obtain ⟨cm, pm, ri, bu, -, -, -, -, -, rfl⟩ := getQuote_ok_elim h
  subst haf
  rfl

/-- Witness for C1: a concrete successful quote (10 USD base, default VAT
0.075, integer rounding) satisfying the decomposition. -/
theorem claim_C1_witness :
    getQuote cfgCom "com" "USD" {} 0 = .ok
      { extension := "com", currency := "USD", basePrice := 10, discount := 0,
        tax := 1, totalPrice := 11, symbol := "$",
        domainTransaction := .create } ∧
    (11 : ℚ) = roundAmount (roundAmount ((10 : ℚ) - 0) false
      + roundAmount (roundAmount ((10 : ℚ) - 0) false * cfgCom.vatRate)
          false) false := by
  have h : getQuote cfgCom "com" "USD" {} 0 = .ok
      { extension := "com", currency := "USD", basePrice := 10, discount := 0,
        tax := 1, totalPrice := 11, symbol := "$",
        domainTransaction := .create } := by with_unfolding_all decide
  exact ⟨h, claim_C1_total_decomposition cfgCom "com" "USD" {} 0 _ false rfl h⟩

/-- C7: with three eligible discounts of rates 0.05, 0.15 and 0.25 on a
quote whose basePrice is 10 dollars (fractional cents mode), the default
max policy yields a discount of exactly 2.50 and the stack policy yields
exactly 4.50. -/
theorem claim_C7_max_vs_stack :
    quoteDiscount (getQuote cfgThreeDiscounts "com" "USD" optsThreeMax 0)
      = some (5/2) ∧
    quoteDiscount (getQuote cfgThreeDiscounts "com" "USD" optsThreeStack 0)
      = some (9/2) := by
  constructor
  · with_unfolding_all decide
  · with_unfolding_all decide

/-- C9: normalizeExtension passes empty input through unchanged, trims,
lowercases and strips all leading dots, and getQuote returns the same
result for ".COM", "..com" and "com" under every configuration. -/
theorem claim_C9_normalization (cfg : DomainQuoteConfig) (c : String)
    (o : GetQuoteOptions) (wc : Int) :
    normalizeExtension "" = "" ∧
    (∀ s : String, s ≠ "" → normalizeExtension s
      = String.mk ((strLower (strTrim s)).data.dropWhile (· = '.'))) ∧
    normalizeExtension ".COM" = "com" ∧ normalizeExtension "..com" = "com" ∧
    getQuote cfg ".COM" c o wc = getQuote cfg "com" c o wc ∧
    getQuote cfg "..com" c o wc = getQuote cfg "com" c o wc := by
  refine ⟨rfl, fun s hs => by simp [normalizeExtension, hs], by decide,
    by decide, ?_, ?_⟩
  · exact getQuote_ext_congr (by decide) cfg c o wc
  · exact getQuote_ext_congr (by decide) cfg c o wc

/-- Witness for C9 at a concrete nonempty input. -/
theorem claim_C9_witness :
    (".COM" : String) ≠ "" ∧ normalizeExtension ".COM"
      = String.mk ((strLower (strTrim ".COM")).data.dropWhile (· = '.')) :=
  ⟨by decide, (claim_C9_normalization cfgCom "USD" {} 0).2.1 ".COM" (by decide)⟩

/-- C10: when the resolved price map has valid prices but neither a USD
amount nor an amount in the requested allow-listed currency, getQuote
fails with UnsupportedExtensionError (an extension error, not a currency
error). -/
theorem claim_C10_no_usd_no_direct (cfg : DomainQuoteConfig) (e c : String)
    (o : GetQuoteOptions) (wc : Int) (cm pm : PriceMap)
    (ri : ExchangeRateData)
    (hpm : resolvePriceMap cfg (normalizeExtension e)
      (o.transaction.getD .create) = some (cm, pm))
    (hUsd : getKey pm "USD" = none)
    (hdir : getKey pm (strUpper c) = none)
    (hsup : (cfg.supportedCurrencies.getD ["USD", "NGN"]).contains
      (strUpper c) = true)
    (hri : findRateInfo cfg (strUpper c) = some ri) :
    getQuote cfg e c o wc
      = .error (.unsupportedExtension (normalizeExtension e)) := by
  have hcm : getKey cm "USD" = none := resolvePriceMap_getKey_none hpm hUsd
  have hbu : resolveBaseUsd cm pm (strUpper c) ri.exchangeRate = none := by
    simp [resolveBaseUsd, hUsd, hcm, hdir]
  have hne : pm.isEmpty = false := by
    have h := resolvePriceMap_ne_nil hpm
    simpa [List.isEmpty_iff] using h
  have hsup' : strUpper c ∈ cfg.supportedCurrencies.getD ["USD", "NGN"] := by
    simpa using hsup
  simp only [getQuote, hpm]
  simp [hne, hsup', hri, hbu]

/-- Witness for C10: an extension priced only in EUR, requested in NGN. -/
theorem claim_C10_witness :
    getQuote cfgEurOnly "com" "NGN" {} 0
      = .error (.unsupportedExtension (normalizeExtension "com")) :=
  claim_C10_no_usd_no_direct cfgEurOnly "com" "NGN" {} 0
    [("EUR", 5)] [("EUR", 5)] ngnRate
    (by with_unfolding_all decide) (by with_unfolding_all decide)
    (by with_unfolding_all decide) (by with_unfolding_all decide)
    (by simp [findRateInfo, cfgEurOnly, ngnRate, strUpper, List.find?])

/-- A surviving discount contribution is always the rounded product of the
base price and the configured rate. -/
theorem evalDiscount_amount {conf : DiscountConfig} {ext currency : String}
    {tx : TransactionType} {bp : ℚ} {af : Bool} {now : Int} {code : String}
    {amt : ℚ}
    (h : evalDiscount conf ext currency tx bp af now code = some amt) :
    amt = roundAmount (bp * conf.rate) af := by
  simp only [evalDiscount] at h
  repeat' split at h
  all_goals
    first
      | exact Option.noConfusion h
      | exact (Option.some.inj h).symm

/-- C2: the returned discount is the policy aggregation of the surviving
contributions, clamped at basePrice: each surviving discount contributes
round(basePrice * rate); no survivors give 0; the default max policy takes
the single largest contribution; stack takes the rounded sum; the result
is clamped to basePrice, so discount is always at most basePrice. -/
theorem claim_C2_discount_aggregation_cap (cfg : DomainQuoteConfig)
    (e c : String) (o : GetQuoteOptions) (wc : Int) (q : Quote) (af : Bool)
    (apps : List ℚ)
    (haf : af = o.allowFractionalAmounts.getD false)
    (h : getQuote cfg e c o wc = .ok q)
    (happs : apps = evalDiscountCodes cfg.discounts q.extension q.currency
      q.domainTransaction q.basePrice af (asNowValue o.now wc)
      (dedupKeepFirst ((o.discountCodes.getD []).map strUpper))) :
    q.discount = min (aggregateDiscount apps o.discountPolicy af) q.basePrice ∧
    q.discount ≤ q.basePrice ∧
    aggregateDiscount [] o.discountPolicy af = 0 ∧
    (∀ (a : ℚ) (l : List ℚ), o.discountPolicy ≠ some .stack →
      aggregateDiscount (a :: l) o.discountPolicy af ∈ a :: l ∧
      ∀ x ∈ a :: l, x ≤ aggregateDiscount (a :: l) o.discountPolicy af) ∧
    (∀ (a : ℚ) (l : List ℚ), aggregateDiscount (a :: l) (some .stack) af
      = roundAmount ((a :: l).foldl (· + ·) 0) af) ∧
    (∀ (conf : DiscountConfig) (code : String) (amt : ℚ),
      evalDiscount conf q.extension q.currency q.domainTransaction
        q.basePrice af (asNowValue o.now wc) code = some amt →
      amt = roundAmount (q.basePrice * conf.rate) af) := by
  obtain ⟨cm, pm, ri, bu, -, -, -, -, -, rfl⟩ := getQuote_ok_elim h
  subst haf
  subst happs
  refine ⟨?_, ?_, rfl, ?_, ?_, ?_⟩
  · simp only [quoteOf]
    split
    next hlt => exact (min_eq_right (le_of_lt hlt)).symm
    next hlt => exact (min_eq_left (le_of_not_lt hlt)).symm
  · simp only [quoteOf]
    split
    next hlt => exact le_refl _
    next hlt => exact le_of_not_lt hlt
  · intro a l hpol
    simp only [aggregateDiscount, if_neg hpol]
    exact foldl_max_spec a l
  · intro a l
    simp [aggregateDiscount]
  · intro conf code amt hsome
    exact evalDiscount_amount hsome

/-- Witness for C2: two 60 percent discounts stacked on a 10 dollar base
give a discount capped at exactly 10, not 12. -/
theorem claim_C2_witness :
    getQuote cfgTwoSixty "com" "USD" optsTwoSixtyStack 0 = .ok twoSixtyQuote ∧
    twoSixtyQuote.discount = 10 ∧
    twoSixtyQuote.discount ≤ twoSixtyQuote.basePrice := by
  have h : getQuote cfgTwoSixty "com" "USD" optsTwoSixtyStack 0
      = .ok twoSixtyQuote := by with_unfolding_all decide
  exact ⟨h, rfl, (claim_C2_discount_aggregation_cap cfgTwoSixty "com" "USD"
    optsTwoSixtyStack 0 twoSixtyQuote true _ rfl h rfl).2.1⟩

/-- C3: a discount whose startAt or endAt fails to parse is skipped
entirely; otherwise (all other filters passing) it survives the window
filter exactly when startAt <= now <= endAt, inclusive on both ends. -/
theorem claim_C3_active_window (conf : DiscountConfig) (ext currency : String)
    (tx : TransactionType) (bp : ℚ) (af : Bool) (now : Int) (code : String) :
    ((conf.startAt = none ∨ conf.endAt = none) →
      evalDiscount conf ext currency tx bp af now code = none) ∧
    (∀ s e : Int, conf.startAt = some s → conf.endAt = some e →
      (conf.extensions.map normalizeExtension).contains ext = true →
      (match conf.transactions with
       | some ts => !ts.isEmpty && !ts.contains tx
       | none => false) = false →
      eligPasses conf { extension := ext, currency := currency,
                         transaction := tx, basePrice := bp,
                         discountCode := code } →
      (evalDiscount conf ext currency tx bp af now code
          = some (roundAmount (bp * conf.rate) af) ↔ s ≤ now ∧ now ≤ e)) := by
  constructor
  · intro hparse
    rcases hp : conf.startAt with _ | s
    · simp [evalDiscount, hp]
    · rcases hq : conf.endAt with _ | e
      · simp [evalDiscount, hp, hq]
      · rcases hparse with h | h
        · rw [hp] at h
          exact absurd h (by simp)
        · rw [hq] at h
          exact absurd h (by simp)
  · intro s e hs he hext htx helig
    simp only [evalDiscount, hs, he]
    constructor
    · intro hsome
      by_contra hw
      have hout : now < s ∨ now > e := by
        rcases not_and_or.mp hw with h1 | h2
        · exact Or.inl (lt_of_not_le h1)
        · exact Or.inr (lt_of_not_le h2)
      rw [if_pos hout] at hsome
      exact Option.noConfusion hsome
    · rintro ⟨h1, h2⟩
      rw [if_neg (by push_neg; exact ⟨h1, h2⟩)]
      rw [if_neg (not_not_intro hext)]
      rw [if_neg (by rw [htx]; simp)]
      cases hie : conf.isEligible with
      | none => rfl
      | some f =>
          have hf : f { extension := ext, currency := currency,
                        transaction := tx, basePrice := bp,
                        discountCode := code } = .ok true := by
            simpa [eligPasses, hie] using helig
          simp [hf]

/-- Witness for C3: the window [100, 200] applies at both boundary
instants and not one millisecond outside. -/
theorem claim_C3_witness :
    evalDiscount discWindow "com" "USD" .create 10 true 100 "A"
      = some (roundAmount (10 * discWindow.rate) true) ∧
    evalDiscount discWindow "com" "USD" .create 10 true 200 "A"
      = some (roundAmount (10 * discWindow.rate) true) ∧
    evalDiscount discWindow "com" "USD" .create 10 true 99 "A" = none ∧
    evalDiscount discWindow "com" "USD" .create 10 true 201 "A" = none := by
  refine ⟨?_, ?_, by with_unfolding_all decide, by with_unfolding_all decide⟩
  · exact ((claim_C3_active_window discWindow "com" "USD" .create 10 true
      100 "A").2 100 200 rfl rfl (by decide) rfl (by trivial)).mpr
      (by constructor <;> decide)
  · exact ((claim_C3_active_window discWindow "com" "USD" .create 10 true
      200 "A").2 100 200 rfl rfl (by decide) rfl (by trivial)).mpr
      (by constructor <;> decide)

/-- Counterexample to C8 as stated: a discount configured under the
lowercase code "save10" is never applied, even when requested with the
exact configured spelling, because the engine uppercases requested codes
before the (case-sensitive) config lookup.  The same discount under the
uppercase key applies (discount 1 on a 10 base at rate 0.1). -/
theorem claim_C8_counterexample :
    quoteDiscount (getQuote cfgLowerCode "com" "USD" optsLowerCode 0)
      = some 0 ∧
    quoteDiscount (getQuote cfgUpperCode "com" "USD" optsLowerCode 0)
      = some 1 := by
  constructor
  · with_unfolding_all decide
  · with_unfolding_all decide

/-- C8 (amended): when the configured code is its own uppercase canonical
form, requesting any case variants of it, possibly repeated, is
deduplicated to that single canonical code and applies the discount
exactly once. -/
theorem claim_C8_uppercase_dedup (discounts : DiscountTable) (U : String)
    (conf : DiscountConfig) (codes : List String) (ext currency : String)
    (tx : TransactionType) (bp : ℚ) (af : Bool) (now : Int) (amt : ℚ)
    (hne : codes ≠ []) (hvar : ∀ s ∈ codes, strUpper s = U)
    (hconf : lookupDiscount discounts U = some conf)
    (hamt : evalDiscount conf ext currency tx bp af now U = some amt) :
    dedupKeepFirst (codes.map strUpper) = [U] ∧
    evalDiscountCodes discounts ext currency tx bp af now
      (dedupKeepFirst (codes.map strUpper)) = [amt] := by
  have hd : dedupKeepFirst (codes.map strUpper) = [U] := by
    refine dedup_const (fun hnil => hne ?_) ?_
    · exact List.map_eq_nil_iff.mp hnil
    · intro x hx
      obtain ⟨t, ht, rfl⟩ := List.mem_map.mp hx
      exact hvar t ht
  refine ⟨hd, ?_⟩
  rw [hd]
  simp [evalDiscountCodes, hconf, hamt]

/-- Witness for the amended C8: the three-way repeated mixed-case request
of the uppercase-configured code SAVE10 applies it exactly once. -/
theorem claim_C8_witness :
    dedupKeepFirst (["SAVE10", "save10", "SAVE10"].map strUpper)
      = ["SAVE10"] ∧
    evalDiscountCodes [("SAVE10", comDisc (1/10))] "com" "USD" .create 10
      true 500 (dedupKeepFirst (["SAVE10", "save10", "SAVE10"].map strUpper))
      = [1] ∧
    quoteDiscount (getQuote cfgUpperCode "com" "USD" optsRepeatedCodes 0)
      = some 1 := by
  have h := claim_C8_uppercase_dedup [("SAVE10", comDisc (1/10))] "SAVE10"
    (comDisc (1/10)) ["SAVE10", "save10", "SAVE10"] "com" "USD" .create 10
    true 500 1 (by decide) (by decide) rfl
    (by with_unfolding_all decide)
  exact ⟨h.1, h.2, by with_unfolding_all decide⟩

/-- C4: getQuote fails only with the two error classes, each carrying its
stable machine-readable kind; a currency error means the uppercased
currency missed the allow-list or (for non-USD) the exchange-rate table;
an extension error means the resolution pipeline found no valid positive
base price; and a custom eligibility callback that throws makes that one
discount ineligible, the error being discarded, never propagated. -/
theorem claim_C4_error_surface (cfg : DomainQuoteConfig) (e c : String)
    (o : GetQuoteOptions) (wc : Int) :
    (∀ err, getQuote cfg e c o wc = .error err →
      err.kind = "ERR_UNSUPPORTED_EXTENSION" ∨
      err.kind = "ERR_UNSUPPORTED_CURRENCY") ∧
    (∀ s, getQuote cfg e c o wc = .error (.unsupportedCurrency s) →
      ((cfg.supportedCurrencies.getD ["USD", "NGN"]).contains (strUpper c)
          = false ∧ s = c) ∨
      ((cfg.supportedCurrencies.getD ["USD", "NGN"]).contains (strUpper c)
          = true ∧ strUpper c ≠ "USD" ∧
        cfg.exchangeRates.find? (fun r => r.currencyCode = strUpper c)
          = none ∧ s = strUpper c)) ∧
    (∀ s, getQuote cfg e c o wc = .error (.unsupportedExtension s) →
      s = normalizeExtension e ∧
      (resolvePriceMap cfg (normalizeExtension e)
          (o.transaction.getD .create) = none ∨
       ∃ cm pm ri, resolvePriceMap cfg (normalizeExtension e)
            (o.transaction.getD .create) = some (cm, pm) ∧
          findRateInfo cfg (strUpper c) = some ri ∧
          (resolveBaseUsd cm pm (strUpper c) ri.exchangeRate = none ∨
           ∃ bu, resolveBaseUsd cm pm (strUpper c) ri.exchangeRate
              = some bu ∧ bu ≤ 0))) ∧
    (∀ (conf : DiscountConfig)
        (f : DiscountEligibilityContext → EligOutcome)
        (ext' currency' : String) (tx' : TransactionType) (bp' : ℚ)
        (af' : Bool) (now' : Int) (code' : String),
      conf.isEligible = some f →
      f { extension := ext', currency := currency', transaction := tx',
          basePrice := bp', discountCode := code' } = .err →
      evalDiscount conf ext' currency' tx' bp' af' now' code' = none) := by
  refine ⟨?_, ?_, ?_, ?_⟩
  · intro err _
    cases err with
    | unsupportedExtension s => exact Or.inl rfl
    | unsupportedCurrency s => exact Or.inr rfl
  · intro s h
    simp only [getQuote] at h
    split at h
    · simp at h
    next pr cm pm heq =>
      split at h
      · simp at h
      split at h
      next hsup =>
        simp only [Except.error.injEq, QuoteError.unsupportedCurrency.injEq]
          at h
        refine Or.inl ⟨?_, h.symm⟩
        by_contra hb
        exact hsup (by simp_all)
      next hsup =>
        split at h
        next hfr =>
          simp only [Except.error.injEq,
            QuoteError.unsupportedCurrency.injEq] at h
          refine Or.inr ⟨by simpa using not_not.mp hsup, ?_, ?_, h.symm⟩
          · intro hUsd
            rw [findRateInfo, if_pos hUsd] at hfr
            exact Option.noConfusion hfr
          · rw [findRateInfo] at hfr
            split at hfr
            · exact Option.noConfusion hfr
            · exact hfr
        next ri hfr =>
          split at h
          · simp at h
          split at h
          · simp at h
          · simp at h
  · intro s h
    simp only [getQuote] at h
    split at h
    next heq =>
      simp only [Except.error.injEq, QuoteError.unsupportedExtension.injEq]
        at h
      exact ⟨h.symm, Or.inl heq⟩
    next pr cm pm heq =>
      split at h
      next hempty =>
        exact absurd (List.isEmpty_iff.mp hempty) (resolvePriceMap_ne_nil heq)
      split at h
      · simp at h
      split at h
      · simp at h
      next ri hfr =>
        split at h
        next hbu =>
          simp only [Except.error.injEq,
            QuoteError.unsupportedExtension.injEq] at h
          exact ⟨h.symm, Or.inr ⟨cm, pm, ri, heq, hfr, Or.inl hbu⟩⟩
        next bu hbu =>
          split at h
          next hle =>
            simp only [Except.error.injEq,
              QuoteError.unsupportedExtension.injEq] at h
            exact ⟨h.symm, Or.inr ⟨cm, pm, ri, heq, hfr,
              Or.inr ⟨bu, hbu, hle⟩⟩⟩
          · simp at h
  · intro conf f ext' currency' tx' bp' af' now' code' hie herr
    simp only [evalDiscount]
    split
    · split
      · rfl
      split
      · rfl
      split
      · rfl
      · rw [hie]
        simp [herr]
    · rfl

/-- Witness for C4: an unlisted currency produces the currency error with
its precise cause, and an always-throwing eligibility callback leaves the
quote discount-free rather than failing. -/
theorem claim_C4_witness :
    getQuote cfgCom "com" "EUR" {} 0 = .error (.unsupportedCurrency "EUR") ∧
    (((cfgCom.supportedCurrencies.getD ["USD", "NGN"]).contains
        (strUpper "EUR") = false ∧ "EUR" = "EUR") ∨
     ((cfgCom.supportedCurrencies.getD ["USD", "NGN"]).contains
        (strUpper "EUR") = true ∧ strUpper "EUR" ≠ "USD" ∧
      cfgCom.exchangeRates.find?
        (fun r => r.currencyCode = strUpper "EUR") = none ∧
      "EUR" = strUpper "EUR")) ∧
    evalDiscount { rate := 1/10, extensions := ["com"], startAt := some 0,
                   endAt := some 1000, isEligible := some (fun _ => .err) }
      "com" "USD" .create 10 true 500 "A" = none := by
  have h : getQuote cfgCom "com" "EUR" {} 0
      = .error (.unsupportedCurrency "EUR") := by with_unfolding_all decide
  refine ⟨h, (claim_C4_error_surface cfgCom "com" "EUR" {} 0).2.1 "EUR" h, ?_⟩
  exact (claim_C4_error_surface cfgCom "com" "EUR" {} 0).2.2.2
    { rate := 1/10, extensions := ["com"], startAt := some 0,
      endAt := some 1000, isEligible := some (fun _ => .err) }
    (fun _ => .err) "com" "USD" .create 10 true 500 "A" rfl rfl

/-- C5: on success, when the price map holds a direct value d for the
target currency and a USD value u, basePrice = round(markedUpUsd * (d/u))
with the implied rate d/u; without a direct value, basePrice =
round(markedUpUsd * exchangeRate); with a direct value but no USD value,
the implied-rate algebra collapses to the nominal rate as well. -/
theorem claim_C5_implied_rate (cfg : DomainQuoteConfig) (e c : String)
    (o : GetQuoteOptions) (wc : Int) (q : Quote) (cm pm : PriceMap)
    (ri : ExchangeRateData) (af : Bool)
    (haf : af = o.allowFractionalAmounts.getD false)
    (h : getQuote cfg e c o wc = .ok q)
    (hpm : resolvePriceMap cfg (normalizeExtension e)
      (o.transaction.getD .create) = some (cm, pm))
    (hri : findRateInfo cfg (strUpper c) = some ri) :
    (∀ d u, getKey pm (strUpper c) = some d → getKey pm "USD" = some u →
      q.basePrice = roundAmount (applyMarkup u cfg.markup * (d / u)) af) ∧
    (getKey pm (strUpper c) = none →
      ∃ u, resolveBaseUsd cm pm (strUpper c) ri.exchangeRate = some u ∧
        q.basePrice
          = roundAmount (applyMarkup u cfg.markup * ri.exchangeRate) af) ∧
    (∀ d, getKey pm (strUpper c) = some d → getKey pm "USD" = none →
      getKey cm "USD" = none →
      q.basePrice = roundAmount
        (applyMarkup (d / ri.exchangeRate) cfg.markup
          * ri.exchangeRate) af) := by
  obtain ⟨cm', pm', ri', bu, hpm', hsup, hri', hbu, hpos, rfl⟩ :=
    getQuote_ok_elim h
  obtain ⟨rfl, rfl⟩ : cm = cm' ∧ pm = pm' := by
    have hinj := Option.some.inj (hpm.symm.trans hpm')
    exact ⟨congrArg Prod.fst hinj, congrArg Prod.snd hinj⟩
  obtain rfl : ri = ri' := Option.some.inj (hri.symm.trans hri')
  subst haf
  refine ⟨?_, ?_, ?_⟩
  · intro d u hd hu
    obtain rfl : u = bu := by
      simp only [resolveBaseUsd, hu] at hbu
      exact Option.some.inj hbu
    simp only [quoteOf, convertBase, hd]
    rw [if_pos hpos]
  · intro hnone
    refine ⟨bu, hbu, ?_⟩
    simp only [quoteOf, convertBase, hnone]
  · intro d hd hUsdPm hUsdCm
    obtain rfl : bu = d / ri.exchangeRate := by
      simp only [resolveBaseUsd, hUsdPm, hUsdCm, hd] at hbu
      exact (Option.some.inj hbu).symm
    have hrate : ri.exchangeRate ≠ 0 := by
      intro h0
      rw [h0, div_zero] at hpos
      exact lt_irrefl 0 hpos
    have hd0 : d ≠ 0 := by
      intro h0
      rw [h0, zero_div] at hpos
      exact lt_irrefl 0 hpos
    have hkey : d / (d / ri.exchangeRate) = ri.exchangeRate := by
      field_simp
    simp only [quoteOf, convertBase, hd]
    rw [if_pos hpos, hkey]

/-- Witness for C5: an explicit NGN entry of 650 beside a 7 USD entry is
returned verbatim via the implied rate, and a USD-only entry of 1
requested in NGN at exchange rate 1000 converts to 1000. -/
theorem claim_C5_witness :
    getQuote cfgNgnDirect "com" "NGN" {} 0 = .ok ngnDirectQuote ∧
    ngnDirectQuote.basePrice
      = roundAmount (applyMarkup 7 cfgNgnDirect.markup * (650 / 7)) false ∧
    quoteBasePrice (getQuote cfgUsdOnly "com" "NGN" {} 0) = some 1000 := by
  have h : getQuote cfgNgnDirect "com" "NGN" {} 0 = .ok ngnDirectQuote := by
    with_unfolding_all decide
  refine ⟨h, ?_, by with_unfolding_all decide⟩
  exact (claim_C5_implied_rate cfgNgnDirect "com" "NGN" {} 0 ngnDirectQuote
    [("USD", 7), ("NGN", 650)] [("USD", 7), ("NGN", 650)] ngnRate false
    rfl h (by with_unfolding_all decide)
    (by simp [findRateInfo, cfgNgnDirect, ngnRate, strUpper, List.find?])).1
    650 7 (by with_unfolding_all decide) (by with_unfolding_all decide)

/-- C6: a plain-number entry is equivalent to a USD-only map; zero and
negative amounts are absent; for each currency key the minimum valid
offered value is kept; and the transaction-table entry, when valid, is
shallow-merged over the create map, the override winning per key and
absent keys retaining the create value, while an absent or invalid
transaction entry leaves the create map unchanged. -/
theorem claim_C6_price_resolution :
    (∀ v : ℚ, toPriceMap (some (.num v))
        = toPriceMap (some (.map [("USD", v)])) ∧
      (v ≤ 0 → toPriceMap (some (.num v)) = none) ∧
      (0 < v → toPriceMap (some (.num v)) = some [("USD", v)])) ∧
    toPriceMap none = none ∧
    (∀ (es : List (String × ℚ)) (k : String), k ≠ "" →
      ((getKey (entriesToMap es) k = none ↔ validVals es k = []) ∧
       (∀ u, getKey (entriesToMap es) k = some u →
         u ∈ validVals es k ∧ ∀ x ∈ validVals es k, u ≤ x))) ∧
    (∀ (cfg : DomainQuoteConfig) (ext : String) (tx : TransactionType)
        (cm pm : PriceMap),
      resolvePriceMap cfg ext tx = some (cm, pm) →
      toPriceMap (lookupEntry cfg.createPrices ext) = some cm ∧
      (∀ table ov, transactionTableFor cfg tx = some table →
        toPriceMap (lookupEntry table ext) = some ov →
        ∀ k, getKey pm k = orOpt (getKey ov k) (getKey cm k)) ∧
      (transactionTableFor cfg tx = none → pm = cm) ∧
      (∀ table, transactionTableFor cfg tx = some table →
        toPriceMap (lookupEntry table ext) = none → pm = cm)) := by
  have hU : strUpper "USD" = "USD" := by decide
  refine ⟨?_, rfl, ?_, ?_⟩
  · intro v
    refine ⟨?_, fun hv => by simp [toPriceMap, hv],
      fun hv => by simp [toPriceMap, hv.not_le]⟩
    by_cases hv : v ≤ 0
    · simp [toPriceMap, entriesToMap, insertPrice, hU, hv]
    · simp [toPriceMap, entriesToMap, insertPrice, getKey, setKey, hU, hv,
        List.isEmpty_cons]
  · intro es k hk
    constructor
    · rw [getKey_entriesToMap es hk]
      cases hvv : validVals es k with
      | nil => simp
      | cons a rest =>
          rw [List.foldl_cons]
          have : minStep none a = some a := rfl
          rw [this, foldl_minStep_some]
          simp
    · intro u hu
      rw [getKey_entriesToMap es hk] at hu
      cases hvv : validVals es k with
      | nil =>
          rw [hvv] at hu
          simp at hu
      | cons a rest =>
          rw [hvv, List.foldl_cons] at hu
          have hstep : minStep none a = some a := rfl
          rw [hstep, foldl_minStep_some] at hu
          obtain rfl : rest.foldl min a = u := Option.some.inj hu
          exact foldl_min_spec a rest
  · intro cfg ext tx cm pm hres
    refine ⟨resolvePriceMap_create hres, ?_, ?_, ?_⟩
    · intro table ov htable hov k
      simp only [resolvePriceMap] at hres
      split at hres
      · exact Option.noConfusion hres
      next cm0 heq =>
        simp only [htable, hov] at hres
        have hinj := Option.some.inj hres
        have hc : cm0 = cm := congrArg Prod.fst hinj
        have hp : mergeMap cm0 ov = pm := congrArg Prod.snd hinj
        rw [← hp, hc]
        exact getKey_mergeMap cm (toPriceMap_nodup hov) k
    · intro htable
      simp only [resolvePriceMap] at hres
      split at hres
      · exact Option.noConfusion hres
      next cm0 heq =>
        simp only [htable] at hres
        have hinj := Option.some.inj hres
        have hc : cm0 = cm := congrArg Prod.fst hinj
        have hp : cm0 = pm := congrArg Prod.snd hinj
        rw [← hc, ← hp]
    · intro table htable hov
      simp only [resolvePriceMap] at hres
      split at hres
      · exact Option.noConfusion hres
      next cm0 heq =>
        simp only [htable, hov] at hres
        have hinj := Option.some.inj hres
        have hc : cm0 = cm := congrArg Prod.fst hinj
        have hp : cm0 = pm := congrArg Prod.snd hinj
        rw [← hc, ← hp]

/-- Witness for C6: duplicate usd/USD keys keep the minimum, and the renew
entry merges over the create entry keeping the unoverridden NGN value. -/
theorem claim_C6_witness :
    getKey (entriesToMap [("usd", 5), ("USD", 3)]) "USD" = some 3 ∧
    (3 : ℚ) ∈ validVals [("usd", 5), ("USD", 3)] "USD" ∧
    (∀ x ∈ validVals [("usd", 5), ("USD", 3)] "USD", (3 : ℚ) ≤ x) ∧
    resolvePriceMap cfgRenew "com" .renew
      = some ([("USD", 8), ("NGN", 60)], [("USD", 9), ("NGN", 60)]) ∧
    getKey [("USD", (9 : ℚ)), ("NGN", 60)] "USD"
      = orOpt (getKey [("USD", (9 : ℚ))] "USD")
          (getKey [("USD", 8), ("NGN", 60)] "USD") ∧
    getKey [("USD", (9 : ℚ)), ("NGN", 60)] "NGN"
      = orOpt (getKey [("USD", (9 : ℚ))] "NGN")
          (getKey [("USD", 8), ("NGN", 60)] "NGN") := by
  have hsome : getKey (entriesToMap [("usd", 5), ("USD", 3)]) "USD"
      = some 3 := by with_unfolding_all decide
  have hmin := (claim_C6_price_resolution.2.2.1 [("usd", 5), ("USD", 3)]
    "USD" (by decide)).2 3 hsome
  have hres : resolvePriceMap cfgRenew "com" .renew
      = some ([("USD", 8), ("NGN", 60)], [("USD", 9), ("NGN", 60)]) := by
    with_unfolding_all decide
  have hmerge := (claim_C6_price_resolution.2.2.2 cfgRenew "com" .renew
    _ _ hres).2.1 [("com", .map [("USD", 9)])] [("USD", 9)] rfl
    (by with_unfolding_all decide)
  exact ⟨hsome, hmin.1, hmin.2, hres, hmerge "USD", hmerge "NGN"⟩

end DomainQuotes
